import Mathlib

/-!
Verification of the SmartGantt scheduling and hierarchy engine.

The development shallowly embeds the core of the application:
* the `Ticket` data model (`src/unnamed/part_000`, `interface Ticket`),
* the rollup algorithm `syncParentDates` and the store operations
  `updateTicket` / `deleteTicket` (`src/App.tsx`),
* the working-day calendar (`isWorkDay`, `addWorkDays`, `countWorkDays`,
  `diffDays` in `src/unnamed/part_000` and `src/unnamed/part_001`),
* the Gantt-chart interaction guards (`isAncestor`, `handleBarMouseDown`,
  the resize branches of `handleMouseMove`, `handleListDrop` in
  `src/unnamed/part_005`).

Dates inside tickets are `String`s in ISO `YYYY-MM-DD` form and the source
compares them with JavaScript `<` / `>`, i.e. lexicographically by code
unit; `strLt` below reproduces that comparison.  Calendar arithmetic in the
Gantt chart happens on `Date` values at local midnight; those are embedded
as `Int` day numbers (days since the epoch), with holiday sets as lists of
day numbers (the source compares `formatDate date` with the holiday's
`YYYY-MM-DD` string, which is equality of calendar days).
-/

/-- JavaScript string `<` (lexicographic by code unit) on the underlying
character lists: `s1 < s2` in JS compares code units left to right. -/
def strLtAux : List Char → List Char → Bool
  | _, [] => false
  | [], _ :: _ => true
  | c :: cs, d :: ds => if c < d then true else if d < c then false else strLtAux cs ds

/-- JavaScript `a < b` on strings, as used on ISO date strings in
`syncParentDates` (src/App.tsx lines 147-148). -/
def strLt (a b : String) : Bool := strLtAux a.data b.data

/-- The `Ticket` record (src/unnamed/part_000, `interface Ticket`).
`status` is one of the four status literals; it is carried as a string.
`startDate`/`dueDate` are ISO date strings, `estimatedHours` a JS number
(embedded as `ℚ`). -/
structure Ticket where
  id : String
  subject : String
  description : String
  status : String
  priorityId : String
  assigneeId : String
  versionId : String
  parentId : Option String
  startDate : String
  dueDate : String
  progress : Int
  estimatedHours : Rat
deriving DecidableEq, Repr

/-- A `Partial<Ticket>` patch: each field optionally present.  Spreading
`{ ...t, ...updates }` replaces exactly the present fields. -/
structure TicketPatch where
  id : Option String := none
  subject : Option String := none
  description : Option String := none
  status : Option String := none
  priorityId : Option String := none
  assigneeId : Option String := none
  versionId : Option String := none
  parentId : Option (Option String) := none
  startDate : Option String := none
  dueDate : Option String := none
  progress : Option Int := none
  estimatedHours : Option Rat := none
deriving DecidableEq, Repr

/-- `{ ...t, ...p }` (src/App.tsx line 163). -/
def applyPatch (t : Ticket) (p : TicketPatch) : Ticket where
  id := p.id.getD t.id
  subject := p.subject.getD t.subject
  description := p.description.getD t.description
  status := p.status.getD t.status
  priorityId := p.priorityId.getD t.priorityId
  assigneeId := p.assigneeId.getD t.assigneeId
  versionId := p.versionId.getD t.versionId
  parentId := p.parentId.getD t.parentId
  startDate := p.startDate.getD t.startDate
  dueDate := p.dueDate.getD t.dueDate
  progress := p.progress.getD t.progress
  estimatedHours := p.estimatedHours.getD t.estimatedHours

/-- `result.filter(t => t.parentId === ticket.id)` (src/App.tsx line 145):
the direct children of the ticket with identifier `i`. -/
def childrenOf (ts : List Ticket) (i : String) : List Ticket :=
  ts.filter (fun t => t.parentId = some i)

/-- `children.reduce((min, c) => c.startDate < min ? c.startDate : min,
children[0].startDate)` (src/App.tsx line 147). -/
def foldMinStart (l : List Ticket) (a : String) : String :=
  l.foldl (fun m c => if strLt c.startDate m then c.startDate else m) a

/-- `children.reduce((max, c) => c.dueDate > max ? c.dueDate : max,
children[0].dueDate)` (src/App.tsx line 148). -/
def foldMaxDue (l : List Ticket) (a : String) : String :=
  l.foldl (fun m c => if strLt m c.dueDate then c.dueDate else m) a

/-- The body of one `result.map(ticket => ...)` pass of `syncParentDates`
(src/App.tsx lines 144-154): a ticket without children is returned as is;
a ticket with children gets `startDate`/`dueDate` replaced by the min/max
over its direct children. -/
def rollDates (ts : List Ticket) (t : Ticket) : Ticket :=
  match childrenOf ts t.id with
  | [] => t
  | c :: cs =>
    { t with startDate := foldMinStart (c :: cs) c.startDate
             dueDate := foldMaxDue (c :: cs) c.dueDate }

/-- One full pass of the `while` loop of `syncParentDates`. -/
def syncStep (ts : List Ticket) : List Ticket := ts.map (rollDates ts)

/-- The `changed` flag computed during a pass: true exactly when some
ticket with children had its dates rewritten by the pass. -/
def syncChanged (ts : List Ticket) : Bool :=
  ts.any (fun t => rollDates ts t ≠ t)

/-- The `while (changed && iterations < 10)` loop (src/App.tsx lines
140-157): with fuel `n + 1` one more pass always runs (`changed` starts
`true`); the loop continues with the pass result only if the pass reported
a change. -/
def syncRun : Nat → List Ticket → List Ticket
  | 0, r => r
  | n + 1, r => if syncChanged r then syncRun n (syncStep r) else syncStep r

/-- `syncParentDates` (src/App.tsx lines 138-159): at most 10 passes. -/
def syncParentDates (allTickets : List Ticket) : List Ticket :=
  syncRun 10 allTickets

/-- The per-ticket patching step of `updateTicket` (src/App.tsx line 163):
`prev.map(t => t.id === id ? { ...t, ...updates } : t)`. -/
def patchedList (ts : List Ticket) (i : String) (p : TicketPatch) : List Ticket :=
  ts.map (fun t => if t.id = i then applyPatch t p else t)

/-- `updateTicket(id, updates)` (src/App.tsx lines 161-166): apply the
patch to the matching ticket, then run the rollup. -/
def updateTicket (ts : List Ticket) (i : String) (p : TicketPatch) : List Ticket :=
  syncParentDates (patchedList ts i p)

/-- `deleteTicket(id)` (src/App.tsx lines 205-211), after the user
confirms: `syncParentDates(prev.filter(t => t.id !== id))`. -/
def deleteTicket (ts : List Ticket) (i : String) : List Ticket :=
  syncParentDates (ts.filter (fun t => ¬ t.id = i))

/-- A task is treated as a root by the Gantt hierarchy when it has no
parent or its parent id matches no ticket in the collection
(src/unnamed/part_005 line 98:
`!t.parentId || !tickets.some(pt => pt.id === t.parentId)`). -/
def isUiRoot (ts : List Ticket) (t : Ticket) : Bool :=
  match t.parentId with
  | none => true
  | some pid => !ts.any (fun pt => pt.id = pid)

/-- `tickets.some(t => t.parentId === ticket.id)` (src/unnamed/part_005
line 195): does the ticket have at least one direct child? -/
def hasChildrenB (ts : List Ticket) (t : Ticket) : Bool :=
  ts.any (fun c => c.parentId = some t.id)

/-- JS `Date.prototype.getDay` on an epoch day number: 0 = Sunday … 6 =
Saturday; day 0 (1970-01-01) was a Thursday. -/
def dayOfWeek (d : Int) : Int := (d + 4) % 7

/-- `isWorkDay` (src/unnamed/part_000 lines 124-129): false on Saturday,
Sunday, or when the holiday list contains the day.  `holidays.some(h =>
h.date === formatDate(date))` is equality of calendar days, so the holiday
set is carried as a list of day numbers. -/
def isWorkDay (d : Int) (hs : List Int) : Bool :=
  let day := dayOfWeek d
  if day = 0 ∨ day = 6 then false else !hs.any (fun h => h = d)

/-- An upper bound on the holiday days, used only as a termination bound
for the source's `while (!isWorkDay(...))` walks (which always terminate:
weekend runs have length 2 and the holiday list is finite). -/
def maxHoliday (hs : List Int) : Int := hs.foldl max 0

/-- `while (!isWorkDay(current, holidays)) current = addDays(current, 1)`
(src/unnamed/part_000 lines 140-142), with explicit fuel. -/
def nextWorkDayAux (hs : List Int) : Nat → Int → Int
  | 0, d => d
  | n + 1, d => if isWorkDay d hs then d else nextWorkDayAux hs n (d + 1)

/-- Enough fuel to reach a working day from `d`: two days past the last
holiday every stretch of three consecutive days contains a weekday. -/
def wdFuel (d : Int) (hs : List Int) : Nat :=
  (max d (maxHoliday hs + 1) + 2 - d).toNat + 1

/-- The first working day `≥ d`. -/
def nextWorkDay (d : Int) (hs : List Int) : Int :=
  nextWorkDayAux hs (wdFuel d hs) d

/-- The counting loop of `addWorkDays` (src/unnamed/part_000 lines
145-151): `while (count < remaining) { current = addDays(current, 1); if
(isWorkDay(current, holidays)) count++; }` — each `count` increment lands
on the first working day strictly after the previous one. -/
def addWorkDaysLoop (hs : List Int) : Nat → Int → Int
  | 0, c => c
  | k + 1, c => addWorkDaysLoop hs k (nextWorkDay (c + 1) hs)

/-- `addWorkDays` (src/unnamed/part_000 lines 135-154):
`remaining = Math.max(1, Math.ceil(workDays))`, slide the start to the
first working day, then add `remaining - 1` further working days. -/
def addWorkDays (startDate : Int) (workDays : Rat) (hs : List Int) : Int :=
  let remaining : Int := max 1 ⌈workDays⌉
  addWorkDaysLoop hs (remaining - 1).toNat (nextWorkDay startDate hs)

/-- The day-by-day counting loop of `countWorkDays`. -/
def countWDAux (hs : List Int) : Nat → Int → Nat
  | 0, _ => 0
  | n + 1, c => (if isWorkDay c hs then 1 else 0) + countWDAux hs n (c + 1)

/-- `countWorkDays` (src/unnamed/part_000 lines 159-173): the number of
working days in the inclusive range `[start, target]`, 0 when
`start > target`. -/
def countWorkDays (start target : Int) (hs : List Int) : Nat :=
  if target < start then 0 else countWDAux hs ((target - start).toNat + 1) start

/-- Epoch day number of the (proleptic Gregorian) calendar date `y-m-d`,
the day arithmetic underlying `parseDate`/`formatDate`/`addDays` of
src/unnamed/part_000: local midnights shifted by whole days. -/
def toEpochDay (y m d : Int) : Int :=
  let y2 := if m ≤ 2 then y - 1 else y
  let era := (if 0 ≤ y2 then y2 else y2 - 399) / 400
  let yoe := y2 - era * 400
  let mp := (m + 9) % 12
  let doy := (153 * mp + 2) / 5 + d - 1
  let doe := yoe * 365 + yoe / 4 - yoe / 100 + doy
  era * 146097 + doe - 719468

/-- JS `Math.round` on an exact rational: round half up. -/
def jsRound (q : Rat) : Int := ⌊q + 1 / 2⌋

/-- JS `Math.ceil` on an exact rational. -/
def jsCeil (q : Rat) : Int := ⌈q⌉

def msPerDay : Int := 86400000

/-- `diffDays` of src/unnamed/part_000 lines 88-93: both inputs are first
rebuilt at local midnight of their local calendar day, then the difference
is rounded.  `d1`, `d2` are the local calendar day numbers of the two
inputs and `ofs d` is the millisecond offset of local midnight of day `d`
from `d * msPerDay` (constant for a fixed-offset zone; it changes across a
daylight-saving transition). -/
def diffDaysNorm (ofs : Int → Int) (d1 d2 : Int) : Int :=
  jsRound ((((d2 * msPerDay + ofs d2) - (d1 * msPerDay + ofs d1) : Int) : Rat) /
    ((msPerDay : Int) : Rat))

/-- `diffDays` of src/unnamed/part_001 lines 11-14: no normalization, the
raw epoch-millisecond difference divided by one day and ceiled. -/
def diffDaysCeil (t1 t2 : Int) : Int :=
  jsCeil (((t2 - t1 : Int) : Rat) / ((msPerDay : Int) : Rat))

/-- The (UTC) calendar day containing epoch millisecond `z`. -/
def localDayUTC (z : Int) : Int := Int.fdiv z msPerDay

/-- The drag kinds of the Gantt bar interaction
(src/unnamed/part_005 line 185). -/
inductive DragType where
  | move
  | resizeStart
  | resizeEnd
deriving DecidableEq, Repr

/-- The `draggingBar` state captured on mouse-down
(src/unnamed/part_005 lines 183-192). -/
structure DragState where
  id : String
  type : DragType
  originalStart : String
  originalEnd : String
  originalAssigneeId : String
  estimatedHours : Rat
deriving DecidableEq, Repr

/-- `handleBarMouseDown` (src/unnamed/part_005 lines 194-208): a resize on
a ticket with children is rejected before any drag state is created
(`if (hasChildren && type !== 'move') return`). -/
def handleBarMouseDown (ts : List Ticket) (t : Ticket) (ty : DragType) :
    Option DragState :=
  if hasChildrenB ts t = true ∧ ¬ ty = DragType.move then none
  else some { id := t.id, type := ty, originalStart := t.startDate,
              originalEnd := t.dueDate, originalAssigneeId := t.assigneeId,
              estimatedHours := t.estimatedHours }

/-- The clamped new end of a `resize-end` drag (src/unnamed/part_005 lines
250-251): `originalEnd + daysDelta`, clamped down to the timeline max. -/
def resizeEndTarget (origEnd delta tlMax : Int) : Int :=
  if tlMax < origEnd + delta then tlMax else origEnd + delta

/-- The `resize-end` branch of `handleMouseMove` (src/unnamed/part_005
lines 249-256) acting on the collection: the update is issued only when
the recomputed working-day span is at least 1.  `fmt` is the
`formatDate` rendering of a day number back to an ISO string. -/
def applyResizeEnd (fmt : Int → String) (ts : List Ticket) (dragId : String)
    (origStart origEnd delta tlMax : Int) (hs : List Int) : List Ticket :=
  let newEnd := resizeEndTarget origEnd delta tlMax
  let w := countWorkDays origStart newEnd hs
  if 1 ≤ w then
    updateTicket ts dragId
      { dueDate := some (fmt (addWorkDays origStart (w : Rat) hs)),
        estimatedHours := some (w : Rat) }
  else ts

/-- The walk of `while (!isWorkDay(newStart, holidays) && newStart <
limit) newStart = addDays(newStart, 1)` (src/unnamed/part_005 lines 245
and 260), with explicit fuel; the walk stops once `limit` is reached, so
`(limit - d).toNat` steps always suffice. -/
def slideToWorkDayAux (hs : List Int) : Nat → Int → Int → Int
  | 0, d, _ => d
  | n + 1, d, limit =>
    if ¬ isWorkDay d hs = true ∧ d < limit then slideToWorkDayAux hs n (d + 1) limit
    else d

/-- The bounded slide to a working day used by the `move` and
`resize-start` drag branches. -/
def slideToWorkDay (hs : List Int) (d limit : Int) : Int :=
  slideToWorkDayAux hs (limit - d).toNat d limit

/-- The slid new start of a `resize-start` drag (src/unnamed/part_005
lines 258-260): shift, clamp up to the timeline min, then slide forward to
a working day but never past the original end. -/
def resizeStartTarget (origStart delta tlMin origEnd : Int) (hs : List Int) : Int :=
  slideToWorkDay hs (if origStart + delta < tlMin then tlMin else origStart + delta)
    origEnd

/-- The `resize-start` branch of `handleMouseMove` (src/unnamed/part_005
lines 257-262): the update is issued only when the recomputed working-day
span is at least 1. -/
def applyResizeStart (fmt : Int → String) (ts : List Ticket) (dragId : String)
    (origStart origEnd delta tlMin : Int) (hs : List Int) : List Ticket :=
  let newStart := resizeStartTarget origStart delta tlMin origEnd hs
  let w := countWorkDays newStart origEnd hs
  if 1 ≤ w then
    updateTicket ts dragId
      { startDate := some (fmt newStart), estimatedHours := some (w : Rat) }
  else ts

/-- The ancestor walk of `isAncestor` (src/unnamed/part_005 lines
115-122), with explicit fuel: the source's `while` walks the parent chain
unboundedly, and on an acyclic collection the chain is shorter than the
collection, so fuel `ts.length` reproduces it. -/
def isAncestorAux (ts : List Ticket) (ancestorId : String) :
    Nat → Option Ticket → Bool
  | _, none => false
  | 0, some _ => false
  | n + 1, some c =>
    match c.parentId with
    | none => false
    | some pid =>
      if pid = ancestorId then true
      else isAncestorAux ts ancestorId n (ts.find? (fun t => t.id = pid))

/-- `isAncestor(ancestorId, ticketId)` (src/unnamed/part_005 lines
115-122): walk `parentId` upward from `ticketId`, true when `ancestorId`
appears on the chain. -/
def isAncestor (ts : List Ticket) (ancestorId ticketId : String) : Bool :=
  isAncestorAux ts ancestorId ts.length (ts.find? (fun t => t.id = ticketId))

/-- The ticket-target branch of `handleListDrop` (src/unnamed/part_005
lines 326-335): dropping a dragged ticket onto another ticket reparents
it, except that a drop onto itself or onto one of its own descendants is
refused with no update. -/
def handleTicketDrop (ts : List Ticket) (draggedId targetId : String) :
    List Ticket :=
  if draggedId = targetId then ts
  else if isAncestor ts draggedId targetId then ts
  else updateTicket ts draggedId { parentId := some (some targetId) }

/-- Pure iteration of the rollup pass, without the early-exit test of the
source loop; `syncRun` is related to it below. -/
def syncIter : Nat → List Ticket → List Ticket
  | 0, r => r
  | n + 1, r => syncIter n (syncStep r)

/-- The rollup invariant stated by the specification: every task with at
least one direct child has `startDate` equal to the least `startDate` of
its direct children and `dueDate` equal to the greatest `dueDate` of its
direct children (order of ISO date strings = JS string order = `strLt`).
Quantifying over all members of the collection makes the property hold for
every ancestor chain. -/
def parentDatesConsistent (ts : List Ticket) : Prop :=
  ∀ t ∈ ts, childrenOf ts t.id ≠ [] →
    ((∃ c ∈ childrenOf ts t.id, t.startDate = c.startDate) ∧
     (∀ c ∈ childrenOf ts t.id, strLt c.startDate t.startDate = false) ∧
     (∃ c ∈ childrenOf ts t.id, t.dueDate = c.dueDate) ∧
     (∀ c ∈ childrenOf ts t.id, strLt t.dueDate c.dueDate = false))

instance parentDatesConsistentDecidable (ts : List Ticket) :
    Decidable (parentDatesConsistent ts) := by
  unfold parentDatesConsistent
  infer_instance

/-- Agreement on every `Ticket` field except `startDate` and `dueDate`. -/
def sameExceptDates (a b : Ticket) : Prop :=
  a.id = b.id ∧ a.subject = b.subject ∧ a.description = b.description ∧
  a.status = b.status ∧ a.priorityId = b.priorityId ∧
  a.assigneeId = b.assigneeId ∧ a.versionId = b.versionId ∧
  a.parentId = b.parentId ∧ a.progress = b.progress ∧
  a.estimatedHours = b.estimatedHours

/-- No ticket's `parentId` references an id absent from the collection. -/
def noDanglingB (ts : List Ticket) : Bool :=
  ts.all (fun t => match t.parentId with
    | none => true
    | some pid => ts.any (fun u => u.id = pid))

/-- A ticket with the given id, parent and date range; the remaining
fields take fixed defaults (used for concrete test collections). -/
def mkT (i : String) (pid : Option String) (s e : String) : Ticket :=
  { id := i, subject := "", description := "", status := "New", priorityId := "",
    assigneeId := "", versionId := "", parentId := pid, startDate := s, dueDate := e,
    progress := 0, estimatedHours := 1 }

/-- Two parent chains of 10 tickets (`a1 ← … ← a10`) and 2 tickets
(`b1 ← b2`); every date is `"5"` except the leaf `b2`, which is
`"1"`-`"1"`.  Both components have depth within the rollup iteration cap,
yet reparenting `b1` under `a10` needs 11 propagation passes. -/
def exL1 : List Ticket :=
  [mkT "a1" none "5" "5", mkT "a2" (some "a1") "5" "5", mkT "a3" (some "a2") "5" "5",
   mkT "a4" (some "a3") "5" "5", mkT "a5" (some "a4") "5" "5", mkT "a6" (some "a5") "5" "5",
   mkT "a7" (some "a6") "5" "5", mkT "a8" (some "a7") "5" "5", mkT "a9" (some "a8") "5" "5",
   mkT "a10" (some "a9") "5" "5", mkT "b1" none "5" "5", mkT "b2" (some "b1") "1" "1"]

/-- A height function witnessing that `exL1` is a forest of depth 10
(heights 0–9: every child is strictly lower than its parent). -/
def exH1 : String → Nat := fun s =>
  if s = "a1" then 9 else if s = "a2" then 8 else if s = "a3" then 7
  else if s = "a4" then 6 else if s = "a5" then 5 else if s = "a6" then 4
  else if s = "a7" then 3 else if s = "a8" then 2 else if s = "a9" then 1
  else if s = "b1" then 1 else 0

/-- A parent `A` with a single child `B`, all dates equal. -/
def exL2 : List Ticket := [mkT "A" none "3" "3", mkT "B" (some "A") "3" "3"]

/-- A parent `P` whose dates disagree with its child `C`'s. -/
def exL3 : List Ticket := [mkT "P" none "5" "5", mkT "C" (some "P") "1" "2"]

/-- A container `P` with exactly two leaf children `B` and `C`; `P`'s
range is the envelope of the children's ranges. -/
def exL8 : List Ticket :=
  [mkT "P" none "1" "2", mkT "B" (some "P") "1" "1", mkT "C" (some "P") "2" "2"]

theorem strLtAux_irrefl (l : List Char) : strLtAux l l = false := by
  induction l with
  | nil => rfl
  | cons c cs ih => simp [strLtAux, lt_irrefl, ih]

theorem strLtAux_trans : ∀ (a b c : List Char), strLtAux a b = true →
    strLtAux b c = true → strLtAux a c = true := by
  intro a
  induction a with
  | nil =>
    intro b c hab hbc
    cases b with
    | nil => simp [strLtAux] at hab
    | cons y ys =>
      cases c with
      | nil => simp [strLtAux] at hbc
      | cons z zs => simp [strLtAux]
  | cons x xs ih =>
    intro b c hab hbc
    cases b with
    | nil => simp [strLtAux] at hab
    | cons y ys =>
      cases c with
      | nil => simp [strLtAux] at hbc
      | cons z zs =>
        simp only [strLtAux] at hab hbc ⊢
        by_cases hxy : x < y
        · by_cases hyz : y < z
          · simp [lt_trans hxy hyz]
          · by_cases hzy : z < y
            · simp [hyz, hzy] at hbc
            · have hy : y = z := le_antisymm (not_lt.mp hzy) (not_lt.mp hyz)
              subst hy
              simp [hxy]
        · by_cases hyx : y < x
          · simp [hxy, hyx] at hab
          · have hx : x = y := le_antisymm (not_lt.mp hyx) (not_lt.mp hxy)
            subst hx
            simp only [lt_irrefl, if_neg (lt_irrefl x), if_false] at hab
            by_cases hxz : x < z
            · simp [hxz]
            · by_cases hzx : z < x
              · simp [hxz, hzx] at hbc
              · simp only [if_neg hxz, if_neg hzx] at hbc ⊢
                exact ih ys zs hab hbc

theorem strLtAux_cotrans : ∀ (a c b : List Char), strLtAux a c = true →
    strLtAux a b = true ∨ strLtAux b c = true := by
  intro a
  induction a with
  | nil =>
    intro c b hac
    cases c with
    | nil => simp [strLtAux] at hac
    | cons z zs =>
      cases b with
      | nil => right; simp [strLtAux]
      | cons y ys => left; simp [strLtAux]
  | cons x xs ih =>
    intro c b hac
    cases c with
    | nil => simp [strLtAux] at hac
    | cons z zs =>
      cases b with
      | nil => right; simp [strLtAux]
      | cons y ys =>
        simp only [strLtAux] at hac ⊢
        by_cases hxz : x < z
        · rcases lt_trichotomy x y with hxy | hxy | hxy
          · left; simp [hxy]
          · subst hxy
            right
            simp [hxz]
          · right
            simp [lt_trans hxy hxz]
        · by_cases hzx : z < x
          · simp [hxz, hzx] at hac
          · have hx : x = z := le_antisymm (not_lt.mp hzx) (not_lt.mp hxz)
            subst hx
            simp only [lt_irrefl, if_neg (lt_irrefl x), if_false] at hac
            rcases lt_trichotomy x y with hxy | hxy | hxy
            · left; simp [hxy]
            · subst hxy
              rcases ih zs ys hac with h | h
              · left
                simp [lt_irrefl, h]
              · right
                simp [lt_irrefl, h]
            · right; simp [hxy]

theorem strLt_irrefl (a : String) : strLt a a = false := strLtAux_irrefl a.data

theorem strLt_trans {a b c : String} (hab : strLt a b = true)
    (hbc : strLt b c = true) : strLt a c = true :=
  strLtAux_trans a.data b.data c.data hab hbc

theorem strLt_cotrans {a c : String} (b : String) (hac : strLt a c = true) :
    strLt a b = true ∨ strLt b c = true :=
  strLtAux_cotrans a.data c.data b.data hac

theorem rollDates_nil {ts : List Ticket} {t : Ticket}
    (h : childrenOf ts t.id = []) : rollDates ts t = t := by
  unfold rollDates
  rw [h]

theorem rollDates_cons {ts : List Ticket} {t c : Ticket} {cs : List Ticket}
    (h : childrenOf ts t.id = c :: cs) :
    rollDates ts t = { t with startDate := foldMinStart (c :: cs) c.startDate,
                              dueDate := foldMaxDue (c :: cs) c.dueDate } := by
  unfold rollDates
  rw [h]

theorem foldMinStart_cons (x : Ticket) (xs : List Ticket) (a : String) :
    foldMinStart (x :: xs) a =
      foldMinStart xs (if strLt x.startDate a then x.startDate else a) := rfl

theorem foldMaxDue_cons (x : Ticket) (xs : List Ticket) (a : String) :
    foldMaxDue (x :: xs) a =
      foldMaxDue xs (if strLt a x.dueDate then x.dueDate else a) := rfl

theorem foldMinStart_mem (l : List Ticket) (a : String) :
    foldMinStart l a = a ∨ ∃ c ∈ l, foldMinStart l a = c.startDate := by
  induction l generalizing a with
  | nil => left; rfl
  | cons x xs ih =>
    rw [foldMinStart_cons]
    by_cases hx : strLt x.startDate a = true
    · rw [if_pos hx]
      rcases ih x.startDate with h | ⟨c, hc, he⟩
      · right; exact ⟨x, by simp, h⟩
      · right; exact ⟨c, by simp [hc], he⟩
    · rw [if_neg hx]
      rcases ih a with h | ⟨c, hc, he⟩
      · left; exact h
      · right; exact ⟨c, by simp [hc], he⟩

theorem foldMinStart_notLt (l : List Ticket) (a : String) :
    strLt a (foldMinStart l a) = false ∧
      ∀ c ∈ l, strLt c.startDate (foldMinStart l a) = false := by
  induction l generalizing a with
  | nil => exact ⟨strLt_irrefl a, by simp⟩
  | cons x xs ih =>
    rw [foldMinStart_cons]
    by_cases hx : strLt x.startDate a = true
    · rw [if_pos hx]
      obtain ⟨h1, h2⟩ := ih x.startDate
      refine ⟨?_, ?_⟩
      · cases h : strLt a (foldMinStart xs x.startDate) with
        | false => rfl
        | true => exact absurd (strLt_trans hx h) (by simp [h1])
      · intro c hc
        rcases List.mem_cons.mp hc with rfl | hc2
        · exact h1
        · exact h2 c hc2
    · rw [if_neg hx]
      obtain ⟨h1, h2⟩ := ih a
      refine ⟨h1, ?_⟩
      · intro c hc
        rcases List.mem_cons.mp hc with rfl | hc2
        · cases h : strLt c.startDate (foldMinStart xs a) with
          | false => rfl
          | true =>
            rcases strLt_cotrans a h with h3 | h3
            · exact absurd h3 hx
            · exact absurd h3 (by simp [h1])
        · exact h2 c hc2

theorem foldMaxDue_mem (l : List Ticket) (a : String) :
    foldMaxDue l a = a ∨ ∃ c ∈ l, foldMaxDue l a = c.dueDate := by
  induction l generalizing a with
  | nil => left; rfl
  | cons x xs ih =>
    rw [foldMaxDue_cons]
    by_cases hx : strLt a x.dueDate = true
    · rw [if_pos hx]
      rcases ih x.dueDate with h | ⟨c, hc, he⟩
      · right; exact ⟨x, by simp, h⟩
      · right; exact ⟨c, by simp [hc], he⟩
    · rw [if_neg hx]
      rcases ih a with h | ⟨c, hc, he⟩
      · left; exact h
      · right; exact ⟨c, by simp [hc], he⟩

theorem foldMaxDue_notLt (l : List Ticket) (a : String) :
    strLt (foldMaxDue l a) a = false ∧
      ∀ c ∈ l, strLt (foldMaxDue l a) c.dueDate = false := by
  induction l generalizing a with
  | nil => exact ⟨strLt_irrefl a, by simp⟩
  | cons x xs ih =>
    rw [foldMaxDue_cons]
    by_cases hx : strLt a x.dueDate = true
    · rw [if_pos hx]
      obtain ⟨h1, h2⟩ := ih x.dueDate
      refine ⟨?_, ?_⟩
      · cases h : strLt (foldMaxDue xs x.dueDate) a with
        | false => rfl
        | true => exact absurd (strLt_trans h hx) (by simp [h1])
      · intro c hc
        rcases List.mem_cons.mp hc with rfl | hc2
        · exact h1
        · exact h2 c hc2
    · rw [if_neg hx]
      obtain ⟨h1, h2⟩ := ih a
      refine ⟨h1, ?_⟩
      · intro c hc
        rcases List.mem_cons.mp hc with rfl | hc2
        · cases h : strLt (foldMaxDue xs a) c.dueDate with
          | false => rfl
          | true =>
            rcases strLt_cotrans a h with h3 | h3
            · exact absurd h3 (by simp [h1])
            · exact absurd h3 hx
        · exact h2 c hc2

theorem syncChanged_false_roll {F : List Ticket} (h : syncChanged F = false) :
    ∀ t ∈ F, rollDates F t = t := by
  intro t ht
  have h2 := List.any_eq_false.mp h t ht
  simpa using h2

theorem syncChanged_false_consistent (F : List Ticket)
    (h : syncChanged F = false) : parentDatesConsistent F := by
  intro t ht hne
  have hroll : rollDates F t = t := syncChanged_false_roll h t ht
  obtain ⟨c, cs, hc⟩ : ∃ c cs, childrenOf F t.id = c :: cs := by
    cases hcc : childrenOf F t.id with
    | nil => exact absurd hcc hne
    | cons c cs => exact ⟨c, cs, rfl⟩
  rw [rollDates_cons hc] at hroll
  have hs : t.startDate = foldMinStart (c :: cs) c.startDate :=
    (congrArg Ticket.startDate hroll).symm
  have hd : t.dueDate = foldMaxDue (c :: cs) c.dueDate :=
    (congrArg Ticket.dueDate hroll).symm
  refine ⟨?_, ?_, ?_, ?_⟩
  · rw [hc]
    rcases foldMinStart_mem (c :: cs) c.startDate with hm | ⟨c2, hc2, he⟩
    · exact ⟨c, by simp, by rw [hs, hm]⟩
    · exact ⟨c2, hc2, by rw [hs, he]⟩
  · intro c2 hc2
    rw [hc] at hc2
    rw [hs]
    exact (foldMinStart_notLt (c :: cs) c.startDate).2 c2 hc2
  · rw [hc]
    rcases foldMaxDue_mem (c :: cs) c.dueDate with hm | ⟨c2, hc2, he⟩
    · exact ⟨c, by simp, by rw [hd, hm]⟩
    · exact ⟨c2, hc2, by rw [hd, he]⟩
  · intro c2 hc2
    rw [hc] at hc2
    rw [hd]
    exact (foldMaxDue_notLt (c :: cs) c.dueDate).2 c2 hc2

theorem syncStep_of_not_changed {r : List Ticket} (h : syncChanged r = false) :
    syncStep r = r := by
  unfold syncStep
  have : r.map (rollDates r) = r.map id :=
    List.map_congr_left (fun t ht => syncChanged_false_roll h t ht)
  rw [this, List.map_id]

theorem map_self_forall {f : Ticket → Ticket} :
    ∀ {l : List Ticket}, l.map f = l → ∀ x ∈ l, f x = x := by
  intro l
  induction l with
  | nil => intro _ x hx; cases hx
  | cons a as ih =>
    intro h x hx
    rw [List.map_cons] at h
    have h1 : f a = a := (List.cons.injEq _ _ _ _ ▸ h).1
    have h2 : as.map f = as := (List.cons.injEq _ _ _ _ ▸ h).2
    rcases List.mem_cons.mp hx with rfl | hx2
    · exact h1
    · exact ih h2 x hx2

theorem not_changed_of_syncStep_self {r : List Ticket} (h : syncStep r = r) :
    syncChanged r = false := by
  unfold syncChanged
  rw [List.any_eq_false]
  intro t ht
  have := map_self_forall h t ht
  simp [this]

theorem syncRun_of_not_changed {r : List Ticket} (n : Nat)
    (h : syncChanged r = false) : syncRun n r = r := by
  induction n with
  | zero => rfl
  | succ n _ =>
    unfold syncRun
    rw [if_neg (by simp [h]), syncStep_of_not_changed h]

theorem syncRun_reaches : ∀ (n : Nat) (r : List Ticket),
    syncChanged (syncIter n r) = false → syncChanged (syncRun (n + 1) r) = false := by
  intro n
  induction n with
  | zero =>
    intro r h
    have hc2 : syncChanged r = false := h
    unfold syncRun
    rw [if_neg (by simp [hc2]), syncStep_of_not_changed hc2]
    exact hc2
  | succ n ih =>
    intro r h
    by_cases hc : syncChanged r = true
    · show syncChanged (syncRun (n + 1 + 1) r) = false
      unfold syncRun
      rw [if_pos (by simp [hc])]
      exact ih (syncStep r) h
    · have hc2 : syncChanged r = false := by simpa using hc
      show syncChanged (syncRun (n + 1 + 1) r) = false
      unfold syncRun
      rw [if_neg (by simp [hc2]), syncStep_of_not_changed hc2]
      exact hc2

theorem sameExceptDates_refl (t : Ticket) : sameExceptDates t t := by
  simp [sameExceptDates]

theorem sameExceptDates_trans {a b c : Ticket} (h1 : sameExceptDates a b)
    (h2 : sameExceptDates b c) : sameExceptDates a c := by
  unfold sameExceptDates at *
  obtain ⟨e1, e2, e3, e4, e5, e6, e7, e8, e9, e10⟩ := h1
  obtain ⟨f1, f2, f3, f4, f5, f6, f7, f8, f9, f10⟩ := h2
  exact ⟨e1.trans f1, e2.trans f2, e3.trans f3, e4.trans f4, e5.trans f5,
    e6.trans f6, e7.trans f7, e8.trans f8, e9.trans f9, e10.trans f10⟩

theorem rollDates_same (ts : List Ticket) (t : Ticket) :
    sameExceptDates (rollDates ts t) t := by
  unfold rollDates
  cases childrenOf ts t.id <;> simp [sameExceptDates]

theorem rollDates_id_eq (ts : List Ticket) (t : Ticket) :
    (rollDates ts t).id = t.id := (rollDates_same ts t).1

theorem rollDates_parentId_eq (ts : List Ticket) (t : Ticket) :
    (rollDates ts t).parentId = t.parentId :=
  (rollDates_same ts t).2.2.2.2.2.2.2.1

theorem syncStep_length (ts : List Ticket) : (syncStep ts).length = ts.length := by
  simp [syncStep]

theorem syncStep_get (ts : List Ticket) (i : Nat) (h : i < ts.length)
    (h2 : i < (syncStep ts).length) :
    (syncStep ts).get ⟨i, h2⟩ = rollDates ts (ts.get ⟨i, h⟩) := by
  simp [syncStep]

theorem syncIter_length : ∀ (n : Nat) (r : List Ticket),
    (syncIter n r).length = r.length := by
  intro n
  induction n with
  | zero => intro r; rfl
  | succ n ih =>
    intro r
    show (syncIter n (syncStep r)).length = r.length
    rw [ih, syncStep_length]

theorem syncIter_succ_outer : ∀ (n : Nat) (r : List Ticket),
    syncIter (n + 1) r = syncStep (syncIter n r) := by
  intro n
  induction n with
  | zero => intro r; rfl
  | succ n ih => intro r; exact ih (syncStep r)

theorem syncIter_get_same : ∀ (n : Nat) (L : List Ticket) (i : Nat)
    (hi : i < L.length) (hn : i < (syncIter n L).length),
    sameExceptDates ((syncIter n L).get ⟨i, hn⟩) (L.get ⟨i, hi⟩) := by
  intro n
  induction n with
  | zero => intro L i hi hn; exact sameExceptDates_refl _
  | succ n ih =>
    intro L i hi hn
    have hstep : i < (syncStep L).length := by rw [syncStep_length]; exact hi
    have h1 := ih (syncStep L) i hstep hn
    have h2 : (syncStep L).get ⟨i, hstep⟩ = rollDates L (L.get ⟨i, hi⟩) :=
      syncStep_get L i hi hstep
    exact sameExceptDates_trans (h2 ▸ h1) (rollDates_same L _)

theorem syncIter_get_id (n : Nat) (L : List Ticket) (i : Nat)
    (hi : i < L.length) (hn : i < (syncIter n L).length) :
    ((syncIter n L).get ⟨i, hn⟩).id = (L.get ⟨i, hi⟩).id :=
  (syncIter_get_same n L i hi hn).1

theorem syncIter_get_parentId (n : Nat) (L : List Ticket) (i : Nat)
    (hi : i < L.length) (hn : i < (syncIter n L).length) :
    ((syncIter n L).get ⟨i, hn⟩).parentId = (L.get ⟨i, hi⟩).parentId :=
  (syncIter_get_same n L i hi hn).2.2.2.2.2.2.2.1

theorem syncIter_parent_mem (n : Nat) (L : List Ticket) (i : String) :
    (∃ t ∈ syncIter n L, t.parentId = some i) ↔ ∃ t ∈ L, t.parentId = some i := by
  constructor
  · rintro ⟨t, ht, hp⟩
    obtain ⟨⟨j, hj⟩, hget⟩ := List.mem_iff_get.mp ht
    have hjL : j < L.length := by rw [← syncIter_length n L]; exact hj
    refine ⟨L.get ⟨j, hjL⟩, List.get_mem _ _ _, ?_⟩
    rw [← syncIter_get_parentId n L j hjL hj, hget]
    exact hp
  · rintro ⟨t, ht, hp⟩
    obtain ⟨⟨j, hj⟩, hget⟩ := List.mem_iff_get.mp ht
    have hjn : j < (syncIter n L).length := by rw [syncIter_length n L]; exact hj
    refine ⟨(syncIter n L).get ⟨j, hjn⟩, List.get_mem _ _ _, ?_⟩
    rw [syncIter_get_parentId n L j hj hjn, hget]
    exact hp

theorem childrenOf_eq_nil_iff (ts : List Ticket) (i : String) :
    childrenOf ts i = [] ↔ ∀ t ∈ ts, ¬ t.parentId = some i := by
  simp [childrenOf, List.filter_eq_nil_iff]

theorem childrenOf_syncIter_nil (n : Nat) (L : List Ticket) (i : String) :
    childrenOf (syncIter n L) i = [] ↔ childrenOf L i = [] := by
  simp only [childrenOf_eq_nil_iff]
  constructor
  · intro h t ht hp
    obtain ⟨u, hu, hup⟩ := (syncIter_parent_mem n L i).mpr ⟨t, ht, hp⟩
    exact h u hu hup
  · intro h t ht hp
    obtain ⟨u, hu, hup⟩ := (syncIter_parent_mem n L i).mp ⟨t, ht, hp⟩
    exact h u hu hup

theorem childrenOf_cons (a : Ticket) (as : List Ticket) (i : String) :
    childrenOf (a :: as) i =
      if a.parentId = some i then a :: childrenOf as i else childrenOf as i := by
  by_cases h : a.parentId = some i <;> simp [childrenOf, h]

theorem childrenOf_eq_of_agree : ∀ (r s : List Ticket) (i : String),
    r.length = s.length →
    (∀ (j : Nat) (hj : j < r.length) (hj2 : j < s.length),
      (r.get ⟨j, hj⟩).parentId = (s.get ⟨j, hj2⟩).parentId) →
    (∀ (j : Nat) (hj : j < r.length) (hj2 : j < s.length),
      (r.get ⟨j, hj⟩).parentId = some i → r.get ⟨j, hj⟩ = s.get ⟨j, hj2⟩) →
    childrenOf r i = childrenOf s i := by
  intro r
  induction r with
  | nil =>
    intro s i hlen _ _
    cases s with
    | nil => rfl
    | cons b bs => simp at hlen
  | cons a as ih =>
    intro s i hlen hpar hagree
    cases s with
    | nil => simp at hlen
    | cons b bs =>
      have hlen2 : as.length = bs.length := by simpa using hlen
      have hpar0 : a.parentId = b.parentId := hpar 0 (by simp) (by simp)
      have hrec : childrenOf as i = childrenOf bs i := by
        refine ih bs i hlen2 ?_ ?_
        · intro j hj hj2
          exact hpar (j + 1) (Nat.succ_lt_succ hj) (Nat.succ_lt_succ hj2)
        · intro j hj hj2 hp
          exact hagree (j + 1) (Nat.succ_lt_succ hj) (Nat.succ_lt_succ hj2) hp
      rw [childrenOf_cons, childrenOf_cons]
      by_cases hpa : a.parentId = some i
      · have hab : a = b := hagree 0 (by simp) (by simp) hpa
        rw [if_pos hpa, if_pos (hpar0 ▸ hpa), hab, hrec]
      · rw [if_neg hpa, if_neg (by rw [← hpar0]; exact hpa), hrec]

theorem get_congr {l1 l2 : List Ticket} (h : l1 = l2) (i : Nat)
    (h1 : i < l1.length) (h2 : i < l2.length) :
    l1.get ⟨i, h1⟩ = l2.get ⟨i, h2⟩ := by
  subst h
  rfl

theorem ticket_update_twice (t : Ticket) (s1 d1 s2 d2 : String) :
    ({ { t with startDate := s1, dueDate := d1 } with
        startDate := s2, dueDate := d2 } : Ticket)
      = { t with startDate := s2, dueDate := d2 } := rfl

theorem syncIter_leaf_const (L : List Ticket) (i : Nat) (hi : i < L.length)
    (hnil : childrenOf L ((L.get ⟨i, hi⟩).id) = []) :
    ∀ (n : Nat) (hn : i < (syncIter n L).length),
      (syncIter n L).get ⟨i, hn⟩ = L.get ⟨i, hi⟩ := by
  intro n
  induction n with
  | zero => intro hn; rfl
  | succ n ih =>
    intro hn
    have hlen : i < (syncIter n L).length := by rw [syncIter_length]; exact hi
    have h2 : i < (syncStep (syncIter n L)).length := by
      rw [syncStep_length]; exact hlen
    have e1 : (syncIter (n + 1) L).get ⟨i, hn⟩ =
        (syncStep (syncIter n L)).get ⟨i, h2⟩ :=
      get_congr (syncIter_succ_outer n L) i hn h2
    rw [e1, syncStep_get _ i hlen h2, ih hlen]
    exact rollDates_nil ((childrenOf_syncIter_nil n L _).mpr hnil)

theorem syncIter_stable (L : List Ticket) (H : String → Nat)
    (hH : ∀ t ∈ L, ∀ c ∈ L, c.parentId = some t.id → H c.id < H t.id) :
    ∀ (k i : Nat) (hi : i < L.length)
      (h1 : i < (syncIter (k + 1) L).length) (h2 : i < (syncIter k L).length),
      H ((L.get ⟨i, hi⟩).id) ≤ k →
      (syncIter (k + 1) L).get ⟨i, h1⟩ = (syncIter k L).get ⟨i, h2⟩ := by
  intro k
  induction k with
  | zero =>
    intro i hi h1 h2 hHk
    have hnil : childrenOf L ((L.get ⟨i, hi⟩).id) = [] := by
      rw [childrenOf_eq_nil_iff]
      intro c hc hp
      have := hH (L.get ⟨i, hi⟩) (List.get_mem L i hi) c hc hp
      omega
    rw [syncIter_leaf_const L i hi hnil 1 h1, syncIter_leaf_const L i hi hnil 0 h2]
  | succ k ih =>
    intro i hi h1 h2 hHk
    by_cases hnil : childrenOf L ((L.get ⟨i, hi⟩).id) = []
    · rw [syncIter_leaf_const L i hi hnil (k + 1 + 1) h1,
        syncIter_leaf_const L i hi hnil (k + 1) h2]
    · have hk : i < (syncIter k L).length := by rw [syncIter_length]; exact hi
      obtain ⟨c, cs, hcB⟩ :
          ∃ c cs, childrenOf (syncIter k L) ((L.get ⟨i, hi⟩).id) = c :: cs := by
        cases hcc : childrenOf (syncIter k L) ((L.get ⟨i, hi⟩).id) with
        | nil => exact absurd ((childrenOf_syncIter_nil k L _).mp hcc) hnil
        | cons c cs => exact ⟨c, cs, rfl⟩
      have hch : childrenOf (syncIter (k + 1) L) ((L.get ⟨i, hi⟩).id) =
          childrenOf (syncIter k L) ((L.get ⟨i, hi⟩).id) := by
        refine childrenOf_eq_of_agree _ _ _ ?_ ?_ ?_
        · rw [syncIter_length, syncIter_length]
        · intro j hjA hjB
          have hjL : j < L.length := by rw [← syncIter_length (k + 1) L]; exact hjA
          rw [syncIter_get_parentId (k + 1) L j hjL hjA,
            syncIter_get_parentId k L j hjL hjB]
        · intro j hjA hjB hp
          have hjL : j < L.length := by rw [← syncIter_length (k + 1) L]; exact hjA
          have hpL : (L.get ⟨j, hjL⟩).parentId = some ((L.get ⟨i, hi⟩).id) := by
            rw [← syncIter_get_parentId (k + 1) L j hjL hjA]
            exact hp
          have hHj := hH (L.get ⟨i, hi⟩) (List.get_mem L i hi)
            (L.get ⟨j, hjL⟩) (List.get_mem L j hjL) hpL
          exact ih j hjL hjA hjB (by omega)
      have hcA : childrenOf (syncIter (k + 1) L) ((L.get ⟨i, hi⟩).id) = c :: cs := by
        rw [hch]; exact hcB
      have idA : ((syncIter (k + 1) L).get ⟨i, h2⟩).id = (L.get ⟨i, hi⟩).id :=
        syncIter_get_id (k + 1) L i hi h2
      have idB : ((syncIter k L).get ⟨i, hk⟩).id = (L.get ⟨i, hi⟩).id :=
        syncIter_get_id k L i hi hk
      have hA2 : i < (syncStep (syncIter (k + 1) L)).length := by
        rw [syncStep_length, syncIter_length]; exact hi
      have hB2 : i < (syncStep (syncIter k L)).length := by
        rw [syncStep_length, syncIter_length]; exact hi
      have eq1 : (syncIter (k + 1 + 1) L).get ⟨i, h1⟩ =
          (syncStep (syncIter (k + 1) L)).get ⟨i, hA2⟩ :=
        get_congr (syncIter_succ_outer (k + 1) L) i h1 hA2
      have eq2 : (syncStep (syncIter (k + 1) L)).get ⟨i, hA2⟩ =
          rollDates (syncIter (k + 1) L) ((syncIter (k + 1) L).get ⟨i, h2⟩) :=
        syncStep_get _ i h2 hA2
      have eq3 : rollDates (syncIter (k + 1) L) ((syncIter (k + 1) L).get ⟨i, h2⟩) =
          { (syncIter (k + 1) L).get ⟨i, h2⟩ with
            startDate := foldMinStart (c :: cs) c.startDate,
            dueDate := foldMaxDue (c :: cs) c.dueDate } :=
        rollDates_cons (by rw [idA]; exact hcA)
      have eq4 : (syncIter (k + 1) L).get ⟨i, h2⟩ =
          (syncStep (syncIter k L)).get ⟨i, hB2⟩ :=
        get_congr (syncIter_succ_outer k L) i h2 hB2
      have eq5 : (syncStep (syncIter k L)).get ⟨i, hB2⟩ =
          rollDates (syncIter k L) ((syncIter k L).get ⟨i, hk⟩) :=
        syncStep_get _ i hk hB2
      have eq6 : rollDates (syncIter k L) ((syncIter k L).get ⟨i, hk⟩) =
          { (syncIter k L).get ⟨i, hk⟩ with
            startDate := foldMinStart (c :: cs) c.startDate,
            dueDate := foldMaxDue (c :: cs) c.dueDate } :=
        rollDates_cons (by rw [idB]; exact hcB)
      rw [eq1, eq2, eq3, eq4, eq5, eq6]

theorem syncChanged_syncIter_nine (L : List Ticket) (H : String → Nat)
    (hH : ∀ t ∈ L, ∀ c ∈ L, c.parentId = some t.id → H c.id < H t.id)
    (hB : ∀ t ∈ L, H t.id < 10) :
    syncChanged (syncIter 9 L) = false := by
  apply not_changed_of_syncStep_self
  rw [← syncIter_succ_outer 9 L]
  apply List.ext_get
  · rw [syncIter_length, syncIter_length]
  · intro i h1 h2
    have hi : i < L.length := by rw [← syncIter_length 10 L]; exact h1
    apply syncIter_stable L H hH 9 i hi h1 h2
    have := hB (L.get ⟨i, hi⟩) (List.get_mem L i hi)
    omega

theorem syncRun_eq_syncIter : ∀ (n : Nat) (r : List Ticket),
    ∃ m, syncRun n r = syncIter m r := by
  intro n
  induction n with
  | zero => intro r; exact ⟨0, rfl⟩
  | succ n ih =>
    intro r
    by_cases hc : syncChanged r = true
    · obtain ⟨m, hm⟩ := ih (syncStep r)
      refine ⟨m + 1, ?_⟩
      unfold syncRun
      rw [if_pos (by simp [hc]), hm]
      rfl
    · have hc2 : syncChanged r = false := by simpa using hc
      refine ⟨1, ?_⟩
      unfold syncRun
      rw [if_neg (by simp [hc2])]
      rfl

theorem map_eq_of_forall₂ {f : Ticket → String} :
    ∀ {l1 l2 : List Ticket}, List.Forall₂ (fun a b => f a = f b) l1 l2 →
      l1.map f = l2.map f := by
  intro l1 l2 h
  induction h with
  | nil => rfl
  | cons h1 _ ih => simp only [List.map_cons, h1, ih]

theorem foldl_max_bound : ∀ (l : List Int) (a : Int),
    a ≤ l.foldl max a ∧ ∀ x ∈ l, x ≤ l.foldl max a := by
  intro l
  induction l with
  | nil => intro a; exact ⟨le_refl a, by simp⟩
  | cons x xs ih =>
    intro a
    have h := ih (max a x)
    refine ⟨le_trans (le_max_left a x) h.1, ?_⟩
    intro y hy
    rcases List.mem_cons.mp hy with rfl | hy2
    · exact le_trans (le_max_right a y) h.1
    · exact h.2 y hy2

theorem mem_le_maxHoliday {hs : List Int} {h : Int} (hh : h ∈ hs) :
    h ≤ maxHoliday hs := (foldl_max_bound hs 0).2 h hh

theorem isWorkDay_of (e : Int) (hs : List Int) (h1 : ¬ (e + 4) % 7 = 0)
    (h6 : ¬ (e + 4) % 7 = 6) (hbig : maxHoliday hs < e) :
    isWorkDay e hs = true := by
  simp only [isWorkDay, dayOfWeek]
  rw [if_neg (by push_neg; exact ⟨h1, h6⟩)]
  simp only [Bool.not_eq_eq_eq_not, Bool.not_true, List.any_eq_false,
    decide_eq_true_eq]
  intro h hh
  have := mem_le_maxHoliday hh
  omega

theorem exists_workday (d : Int) (hs : List Int) :
    ∃ e, d ≤ e ∧ e ≤ max d (maxHoliday hs + 1) + 2 ∧ isWorkDay e hs = true := by
  have hBd : d ≤ max d (maxHoliday hs + 1) := le_max_left _ _
  have hBh : maxHoliday hs + 1 ≤ max d (maxHoliday hs + 1) := le_max_right _ _
  by_cases h0 : (max d (maxHoliday hs + 1) + 4) % 7 = 0
  · exact ⟨max d (maxHoliday hs + 1) + 1, by omega, by omega,
      isWorkDay_of _ hs (by omega) (by omega) (by omega)⟩
  · by_cases h6 : (max d (maxHoliday hs + 1) + 4) % 7 = 6
    · exact ⟨max d (maxHoliday hs + 1) + 2, by omega, by omega,
        isWorkDay_of _ hs (by omega) (by omega) (by omega)⟩
    · exact ⟨max d (maxHoliday hs + 1), by omega, by omega,
        isWorkDay_of _ hs (by omega) (by omega) (by omega)⟩

theorem nextWorkDayAux_spec (hs : List Int) : ∀ (fuel : Nat) (d : Int),
    (∃ e, d ≤ e ∧ e < d + fuel ∧ isWorkDay e hs = true) →
    isWorkDay (nextWorkDayAux hs fuel d) hs = true ∧
    d ≤ nextWorkDayAux hs fuel d ∧
    ∀ e, d ≤ e → isWorkDay e hs = true → nextWorkDayAux hs fuel d ≤ e := by
  intro fuel
  induction fuel with
  | zero =>
    intro d hex
    obtain ⟨e, he1, he2, _⟩ := hex
    exact absurd he2 (by omega)
  | succ fuel ih =>
    intro d hex
    unfold nextWorkDayAux
    by_cases hd : isWorkDay d hs = true
    · rw [if_pos hd]
      exact ⟨hd, le_refl d, fun e he _ => he⟩
    · rw [if_neg hd]
      obtain ⟨e, he1, he2, he3⟩ := hex
      have hne : ¬ e = d := fun h => hd (h ▸ he3)
      obtain ⟨s1, s2, s3⟩ := ih (d + 1) ⟨e, by omega, by omega, he3⟩
      refine ⟨s1, by omega, ?_⟩
      intro e2 hde2 hwe2
      have : ¬ e2 = d := fun h => hd (h ▸ hwe2)
      exact s3 e2 (by omega) hwe2

theorem nextWorkDay_spec (d : Int) (hs : List Int) :
    isWorkDay (nextWorkDay d hs) hs = true ∧ d ≤ nextWorkDay d hs ∧
    ∀ e, d ≤ e → isWorkDay e hs = true → nextWorkDay d hs ≤ e := by
  apply nextWorkDayAux_spec
  obtain ⟨e, he1, he2, he3⟩ := exists_workday d hs
  refine ⟨e, he1, ?_, he3⟩
  have hBd : d ≤ max d (maxHoliday hs + 1) := le_max_left _ _
  unfold wdFuel
  omega

theorem nextWorkDay_mono (hs : List Int) {d d2 : Int} (h : d ≤ d2) :
    nextWorkDay d hs ≤ nextWorkDay d2 hs :=
  (nextWorkDay_spec d hs).2.2 _ (le_trans h (nextWorkDay_spec d2 hs).2.1)
    (nextWorkDay_spec d2 hs).1

theorem countWorkDays_of_gt {s t : Int} (hs : List Int) (h : t < s) :
    countWorkDays s t hs = 0 := by
  simp [countWorkDays, if_pos h]

theorem countWDAux_succ (hs : List Int) (n : Nat) (c : Int) :
    countWDAux hs (n + 1) c =
      (if isWorkDay c hs then 1 else 0) + countWDAux hs n (c + 1) := rfl

theorem countWorkDays_succ_left {s t : Int} (hs : List Int) (h : s ≤ t) :
    countWorkDays s t hs =
      (if isWorkDay s hs then 1 else 0) + countWorkDays (s + 1) t hs := by
  unfold countWorkDays
  rw [if_neg (show ¬ t < s by omega)]
  by_cases hst : t < s + 1
  · have hts : t = s := by omega
    subst hts
    rw [if_pos hst]
    have h0 : (t - t).toNat + 1 = 1 := by omega
    rw [h0, countWDAux_succ]
    rfl
  · rw [if_neg hst]
    have h0 : (t - s).toNat + 1 = ((t - (s + 1)).toNat + 1) + 1 := by omega
    rw [h0, countWDAux_succ]

theorem countWorkDays_skip : ∀ (n : Nat) (s s2 t : Int) (hs : List Int),
    s2 - s = n → s ≤ s2 →
    (∀ x, s ≤ x → x < s2 → isWorkDay x hs = false) →
    countWorkDays s t hs = countWorkDays s2 t hs := by
  intro n
  induction n with
  | zero =>
    intro s s2 t hs hn _ _
    have h2 : s = s2 := by omega
    rw [h2]
  | succ n ih =>
    intro s s2 t hs hn hle hnw
    have hlt : s < s2 := by omega
    by_cases hts : t < s
    · rw [countWorkDays_of_gt hs hts, countWorkDays_of_gt hs (by omega)]
    · push_neg at hts
      rw [countWorkDays_succ_left hs hts,
        if_neg (by simp [hnw s (le_refl s) hlt]), Nat.zero_add]
      exact ih (s + 1) s2 t hs (by omega) (by omega)
        (fun x hx1 hx2 => hnw x (by omega) hx2)

theorem addWorkDaysLoop_spec (hs : List Int) : ∀ (k : Nat) (c : Int),
    isWorkDay c hs = true →
    isWorkDay (addWorkDaysLoop hs k c) hs = true ∧
    c ≤ addWorkDaysLoop hs k c ∧
    countWorkDays c (addWorkDaysLoop hs k c) hs = k + 1 := by
  intro k
  induction k with
  | zero =>
    intro c hc
    refine ⟨hc, le_refl c, ?_⟩
    show countWorkDays c c hs = 1
    rw [countWorkDays_succ_left hs (le_refl c), if_pos hc,
      countWorkDays_of_gt hs (by omega)]
  | succ k ih =>
    intro c hc
    obtain ⟨w1, w2, w3⟩ := nextWorkDay_spec (c + 1) hs
    obtain ⟨s1, s2, s3⟩ := ih (nextWorkDay (c + 1) hs) w1
    have hloop : addWorkDaysLoop hs (k + 1) c =
        addWorkDaysLoop hs k (nextWorkDay (c + 1) hs) := rfl
    refine ⟨by rw [hloop]; exact s1, by rw [hloop]; omega, ?_⟩
    rw [hloop]
    rw [countWorkDays_succ_left hs (by omega), if_pos hc]
    rw [countWorkDays_skip (nextWorkDay (c + 1) hs - (c + 1)).toNat (c + 1)
      (nextWorkDay (c + 1) hs) (addWorkDaysLoop hs k (nextWorkDay (c + 1) hs)) hs
      (by omega) (by omega) ?_]
    · rw [s3]
      omega
    · intro x hx1 hx2
      cases h : isWorkDay x hs with
      | false => rfl
      | true =>
        have := w3 x (by omega) h
        omega

theorem addWorkDaysLoop_mono_start (hs : List Int) : ∀ (k : Nat) (c c2 : Int),
    c ≤ c2 → addWorkDaysLoop hs k c ≤ addWorkDaysLoop hs k c2 := by
  intro k
  induction k with
  | zero => intro c c2 h; exact h
  | succ k ih =>
    intro c c2 h
    show addWorkDaysLoop hs k (nextWorkDay (c + 1) hs) ≤
      addWorkDaysLoop hs k (nextWorkDay (c2 + 1) hs)
    exact ih _ _ (nextWorkDay_mono hs (by omega))

theorem addWorkDaysLoop_le_succ (hs : List Int) (k : Nat) (c : Int) :
    addWorkDaysLoop hs k c ≤ addWorkDaysLoop hs (k + 1) c := by
  show _ ≤ addWorkDaysLoop hs k (nextWorkDay (c + 1) hs)
  apply addWorkDaysLoop_mono_start
  have := (nextWorkDay_spec (c + 1) hs).2.1
  omega

theorem addWorkDaysLoop_mono_fuel (hs : List Int) (c : Int) :
    ∀ {k k2 : Nat}, k ≤ k2 → addWorkDaysLoop hs k c ≤ addWorkDaysLoop hs k2 c := by
  intro k k2 h
  induction h with
  | refl => exact le_refl _
  | step _ ih => exact le_trans ih (addWorkDaysLoop_le_succ hs _ c)

theorem isUiRoot_some {ts : List Ticket} {t : Ticket} {pid : String}
    (h : t.parentId = some pid) :
    isUiRoot ts t = !ts.any (fun pt => pt.id = pid) := by
  unfold isUiRoot
  rw [h]

/-- C1 (amended): whenever the collection obtained by applying the patch
is a forest whose node heights stay below the 10-pass iteration cap
(witnessed by a height function `H` that strictly decreases from parent to
child), `updateTicket` leaves every task with children carrying exactly
the minimum child `startDate` and maximum child `dueDate`, for every
ancestor.  (The original claim put the depth condition on the collection
before the patch; `updateTicket_rollup_cap_cex` shows that version is
false, since the patch itself may reparent and deepen the tree.) -/
theorem updateTicket_rollup (L : List Ticket) (i : String) (p : TicketPatch)
    (H : String → Nat)
    (hH : ∀ t ∈ patchedList L i p, ∀ c ∈ patchedList L i p,
      c.parentId = some t.id → H c.id < H t.id)
    (hB : ∀ t ∈ patchedList L i p, H t.id < 10) :
    parentDatesConsistent (updateTicket L i p) := by
  have h9 := syncChanged_syncIter_nine (patchedList L i p) H hH hB
  have h10 : syncChanged (syncRun 10 (patchedList L i p)) = false :=
    syncRun_reaches 9 _ h9
  exact syncChanged_false_consistent _ h10

/-- C1 witness: a two-ticket forest patched with an empty patch satisfies
the rollup invariant afterwards. -/
theorem updateTicket_rollup_witness :
    parentDatesConsistent (updateTicket exL2 "A" {}) :=
  updateTicket_rollup exL2 "A" {} (fun s => if s = "A" then 1 else 0)
    (by decide) (by decide)

/-- C1 counterexample: `exL1` is a forest of depth at most the iteration
cap (heights 0–9 under `exH1`), yet the single `updateTicket` call that
reparents `b1` under the leaf `a10` produces a collection violating the
parent-date invariant: the propagation needs 11 passes but the loop stops
after 10. -/
theorem updateTicket_rollup_cap_cex :
    (∀ t ∈ exL1, ∀ c ∈ exL1, c.parentId = some t.id → exH1 c.id < exH1 t.id) ∧
    (∀ t ∈ exL1, exH1 t.id < 10) ∧
    ¬ parentDatesConsistent
        (updateTicket exL1 "b1" { parentId := some (some "a10") }) := by
  decide

/-- C2 counterexample: reparenting `A` under its own child `B` is
cycle-inducing (`isAncestor "A" "B"` holds), yet `updateTicket` applies
it: no `InvalidOperation` is raised and the collection changes. -/
theorem updateTicket_cycle_cex :
    isAncestor exL2 "A" "B" = true ∧
    updateTicket exL2 "A" { parentId := some (some "B") } ≠ exL2 := by
  decide

/-- C2 (amended): the cycle guard lives in the drag-drop handler, not in
`updateTicket`: `handleListDrop` refuses a drop of a ticket onto itself or
onto one of its own descendants, issuing no update, so the collection is
unchanged; `updateTicket` itself performs no cycle check. -/
theorem handleTicketDrop_cycle_guard (ts : List Ticket)
    (draggedId targetId : String)
    (h : draggedId = targetId ∨ isAncestor ts draggedId targetId = true) :
    handleTicketDrop ts draggedId targetId = ts := by
  unfold handleTicketDrop
  rcases h with h | h
  · rw [if_pos h]
  · by_cases h2 : draggedId = targetId
    · rw [if_pos h2]
    · rw [if_neg h2, if_pos h]

/-- C2 witness: dropping `A` onto its descendant `B` is refused. -/
theorem handleTicketDrop_cycle_guard_witness :
    isAncestor exL2 "A" "B" = true ∧ handleTicketDrop exL2 "A" "B" = exL2 :=
  ⟨by decide, handleTicketDrop_cycle_guard exL2 "A" "B" (Or.inr (by decide))⟩

/-- C3 counterexample: `updateTicket` with an id absent from the
collection raises nothing and is not a no-op: it still runs the rollup,
which rewrites the inconsistent parent `P`'s dates. -/
theorem updateTicket_notfound_cex :
    (∀ t ∈ exL3, ¬ t.id = "X") ∧ updateTicket exL3 "X" {} ≠ exL3 := by
  decide

/-- C3 (amended): `updateTicket` with an absent id raises no `NotFound`;
it applies no per-ticket patch and runs the rollup, so the collection is
returned unchanged exactly when it already is a rollup fixed point. -/
theorem updateTicket_absent_id (ts : List Ticket) (i : String) (p : TicketPatch)
    (habs : ∀ t ∈ ts, ¬ t.id = i) (hfix : syncChanged ts = false) :
    updateTicket ts i p = ts := by
  have hpatch : patchedList ts i p = ts := by
    unfold patchedList
    have h2 : ts.map (fun t => if t.id = i then applyPatch t p else t) =
        ts.map id :=
      List.map_congr_left (fun t ht => by rw [if_neg (habs t ht)]; rfl)
    rw [h2, List.map_id]
  show syncParentDates (patchedList ts i p) = ts
  rw [hpatch]
  exact syncRun_of_not_changed 10 hfix

/-- C3 witness: on a consistent collection an absent-id update returns
the collection unchanged. -/
theorem updateTicket_absent_id_witness : updateTicket exL8 "X" {} = exL8 :=
  updateTicket_absent_id exL8 "X" {} (by decide) (by decide)

/-- C8 counterexample: deleting the container `P` keeps both children
with their dates, but their `parentId` still references the removed `P`:
a dangling reference remains, contradicting the claim. -/
theorem deleteTicket_dangling_cex :
    deleteTicket exL8 "P" =
      [mkT "B" (some "P") "1" "1", mkT "C" (some "P") "2" "2"] ∧
    noDanglingB (deleteTicket exL8 "P") = false := by
  decide

/-- C8 (amended): deleting a task removes only that task.  When the
remaining collection is already a rollup fixed point, every former child
survives wholly unchanged (dates included) and, since no remaining ticket
carries the deleted id, the hierarchy view treats it as a root; its stale
`parentId` reference, however, is not cleared. -/
theorem deleteTicket_orphans (L : List Ticket) (i : String)
    (hfix : syncChanged (L.filter (fun t => ¬ t.id = i)) = false) :
    deleteTicket L i = L.filter (fun t => ¬ t.id = i) ∧
    ∀ c ∈ L, ¬ c.id = i → c.parentId = some i →
      c ∈ deleteTicket L i ∧ isUiRoot (deleteTicket L i) c = true := by
  have hdel : deleteTicket L i = L.filter (fun t => ¬ t.id = i) := by
    show syncParentDates _ = _
    exact syncRun_of_not_changed 10 hfix
  refine ⟨hdel, ?_⟩
  intro c hc hcid hcp
  have hmem : c ∈ L.filter (fun t => ¬ t.id = i) := by
    rw [List.mem_filter]
    exact ⟨hc, by simpa using hcid⟩
  refine ⟨by rw [hdel]; exact hmem, ?_⟩
  rw [hdel, isUiRoot_some hcp]
  simp only [Bool.not_eq_eq_eq_not, Bool.not_true, List.any_eq_false,
    decide_eq_true_eq]
  intro pt hpt
  have := (List.mem_filter.mp hpt).2
  simpa using this

/-- C8 witness: deleting `P` from the three-ticket collection keeps `B`
unchanged and root-like. -/
theorem deleteTicket_orphans_witness :
    mkT "B" (some "P") "1" "1" ∈ deleteTicket exL8 "P" ∧
    isUiRoot (deleteTicket exL8 "P") (mkT "B" (some "P") "1" "1") = true :=
  (deleteTicket_orphans exL8 "P" (by decide)).2 (mkT "B" (some "P") "1" "1")
    (by decide) (by decide) (by decide)

/-- C10: the rollup is a frame-preserving operation: it keeps the list of
ids (set and order), changes at most `startDate`/`dueDate` of each ticket,
and returns every ticket without direct children exactly as given. -/
theorem syncParentDates_frame (L : List Ticket) :
    (syncParentDates L).map (fun t => t.id) = L.map (fun t => t.id) ∧
    List.Forall₂
      (fun a b => sameExceptDates a b ∧ (childrenOf L b.id = [] → a = b))
      (syncParentDates L) L := by
  obtain ⟨m, hm⟩ := syncRun_eq_syncIter 10 L
  have hm2 : syncParentDates L = syncIter m L := hm
  have hlen : (syncParentDates L).length = L.length := by
    rw [hm2, syncIter_length]
  have hforall : List.Forall₂
      (fun a b => sameExceptDates a b ∧ (childrenOf L b.id = [] → a = b))
      (syncParentDates L) L := by
    rw [List.forall₂_iff_get]
    refine ⟨hlen, ?_⟩
    intro i hS hL
    have hiI : i < (syncIter m L).length := by rw [← hm2]; exact hS
    rw [get_congr hm2 i hS hiI]
    exact ⟨syncIter_get_same m L i hL hiI,
      fun hcnil => syncIter_leaf_const L i hL hcnil m hiI⟩
  exact ⟨map_eq_of_forall₂ (hforall.imp (fun a b h => h.1.1)), hforall⟩

/-- C4: `addWorkDays` clamps the requested duration to
`max 1 ⌈workDays⌉`, returns a working day, and the inclusive working-day
count from the effective start `nextWorkDay d hs` (the first working day
`≥ d`; see `nextWorkDay_spec` for its characterization) to the result is
exactly the clamped duration. -/
theorem addWorkDays_count (d : Int) (w : Rat) (hs : List Int) :
    isWorkDay (addWorkDays d w hs) hs = true ∧
    d ≤ nextWorkDay d hs ∧ isWorkDay (nextWorkDay d hs) hs = true ∧
    (countWorkDays (nextWorkDay d hs) (addWorkDays d w hs) hs : Int) =
      max 1 ⌈w⌉ := by
  have hw : (1 : Int) ≤ max 1 ⌈w⌉ := le_max_left _ _
  obtain ⟨w1, w2, _⟩ := nextWorkDay_spec d hs
  obtain ⟨s1, _, s3⟩ :=
    addWorkDaysLoop_spec hs (max 1 ⌈w⌉ - 1).toNat (nextWorkDay d hs) w1
  have he : addWorkDays d w hs =
      addWorkDaysLoop hs (max 1 ⌈w⌉ - 1).toNat (nextWorkDay d hs) := rfl
  rw [he]
  exact ⟨s1, w2, w1, by rw [s3]; omega⟩

/-- C5: for a fixed start and holiday set, `addWorkDays` is monotone
non-decreasing in its `workDays` argument. -/
theorem addWorkDays_mono (d : Int) (hs : List Int) (n m : Rat) (h : n ≤ m) :
    addWorkDays d n hs ≤ addWorkDays d m hs := by
  have hc : ⌈n⌉ ≤ ⌈m⌉ := Int.ceil_mono h
  show addWorkDaysLoop hs (max 1 ⌈n⌉ - 1).toNat (nextWorkDay d hs) ≤
    addWorkDaysLoop hs (max 1 ⌈m⌉ - 1).toNat (nextWorkDay d hs)
  apply addWorkDaysLoop_mono_fuel
  have h1 : max 1 ⌈n⌉ ≤ max 1 ⌈m⌉ := max_le_max (le_refl 1) hc
  have h2 : (1 : Int) ≤ max 1 ⌈n⌉ := le_max_left _ _
  omega

/-- C5 witness. -/
theorem addWorkDays_mono_witness : addWorkDays 0 2 [] ≤ addWorkDays 0 3 [] :=
  addWorkDays_mono 0 [] 2 3 (by norm_num)

/-- C6: with 2025-01-01 the only holiday and start Monday 2024-12-30,
`addWorkDays(start, 3)` counts 12/30 and 12/31 as working days 1 and 2,
skips the 1/1 holiday, and returns 2025-01-02 as working day 3. -/
theorem addWorkDays_newyear_scenario :
    addWorkDays (toEpochDay 2024 12 30) 3 [toEpochDay 2025 1 1] =
      toEpochDay 2025 1 2 ∧
    dayOfWeek (toEpochDay 2024 12 30) = 1 ∧
    isWorkDay (toEpochDay 2024 12 30) [toEpochDay 2025 1 1] = true ∧
    isWorkDay (toEpochDay 2024 12 31) [toEpochDay 2025 1 1] = true ∧
    isWorkDay (toEpochDay 2025 1 1) [toEpochDay 2025 1 1] = false ∧
    isWorkDay (toEpochDay 2025 1 2) [toEpochDay 2025 1 1] = true := by
  decide

/-- C9: drag guards.  A `resize-end` or `resize-start` edit whose
recomputed working-day span is not at least 1 issues no update (the
collection is returned unchanged), and `handleBarMouseDown` refuses to
start any non-`move` drag on a ticket that has direct children. -/
theorem resize_and_container_guards (fmt : Int → String) (ts : List Ticket)
    (dragId : String) (origStart origEnd delta tlMax tlMin : Int)
    (hs : List Int) (t : Ticket) (ty : DragType) :
    (countWorkDays origStart (resizeEndTarget origEnd delta tlMax) hs = 0 →
      applyResizeEnd fmt ts dragId origStart origEnd delta tlMax hs = ts) ∧
    (countWorkDays (resizeStartTarget origStart delta tlMin origEnd hs)
        origEnd hs = 0 →
      applyResizeStart fmt ts dragId origStart origEnd delta tlMin hs = ts) ∧
    (hasChildrenB ts t = true → ¬ ty = DragType.move →
      handleBarMouseDown ts t ty = none) := by
  refine ⟨?_, ?_, ?_⟩
  · intro h
    simp only [applyResizeEnd]
    rw [h, if_neg (by omega)]
  · intro h
    simp only [applyResizeStart]
    rw [h, if_neg (by omega)]
  · intro h1 h2
    unfold handleBarMouseDown
    rw [if_pos ⟨h1, h2⟩]

/-- C9 witness: a resize that would leave fewer than one working day is a
no-op in both directions, and a resize drag on the container `A` (which
has the child `B`) never starts. -/
theorem resize_and_container_guards_witness :
    applyResizeEnd (fun _ => "") exL2 "B" 10 5 0 100 [] = exL2 ∧
    applyResizeStart (fun _ => "") exL2 "B" 10 5 0 0 [] = exL2 ∧
    handleBarMouseDown exL2 (mkT "A" none "3" "3") DragType.resizeEnd = none := by
  obtain ⟨g1, g2, g3⟩ := resize_and_container_guards (fun _ => "") exL2 "B"
    10 5 0 100 0 [] (mkT "A" none "3" "3") DragType.resizeEnd
  exact ⟨g1 (by decide), g2 (by decide), g3 (by decide) (by decide)⟩

/-- C7 (amended): the `dateUtils` `diffDays` (src/unnamed/part_000)
normalizes both inputs to local midnight of their calendar day and rounds;
as long as the two local midnights' offsets differ by less than half a day
(every real daylight-saving shift), the result is exactly the calendar-day
difference `d2 - d1`.  The duplicate `diffDays` of src/unnamed/part_001
instead ceils the raw difference without normalizing; `diffDays_ceil_cex`
shows it off by one already for two instants of the same calendar day. -/
theorem diffDaysNorm_calendar (ofs : Int → Int) (d1 d2 : Int)
    (h1 : -43200000 ≤ ofs d2 - ofs d1) (h2 : ofs d2 - ofs d1 < 43200000) :
    diffDaysNorm ofs d1 d2 = d2 - d1 := by
  unfold diffDaysNorm jsRound msPerDay
  have key : (((d2 * 86400000 + ofs d2) - (d1 * 86400000 + ofs d1) : Int) : ℚ) /
      ((86400000 : Int) : ℚ) + 1 / 2 =
      ((d2 - d1 : Int) : ℚ) +
        ((ofs d2 - ofs d1 + 43200000 : Int) : ℚ) / 86400000 := by
    push_cast
    field_simp
    ring
  rw [key]
  have hb1 : (0 : ℚ) ≤ ((ofs d2 - ofs d1 + 43200000 : Int) : ℚ) / 86400000 := by
    apply div_nonneg _ (by norm_num)
    have : (0 : Int) ≤ ofs d2 - ofs d1 + 43200000 := by omega
    exact_mod_cast this
  have hb2 : ((ofs d2 - ofs d1 + 43200000 : Int) : ℚ) / 86400000 < 1 := by
    rw [div_lt_one (by norm_num)]
    have : (ofs d2 - ofs d1 + 43200000 : Int) < 86400000 := by omega
    exact_mod_cast this
  rw [Int.floor_eq_iff]
  push_cast at hb1 hb2 ⊢
  constructor
  · linarith
  · linarith

/-- C7 witness: in a fixed-offset zone the normalized, rounded difference
is the calendar-day difference. -/
theorem diffDaysNorm_calendar_witness : diffDaysNorm (fun _ => 0) 0 5 = 5 - 0 :=
  diffDaysNorm_calendar (fun _ => 0) 0 5 (by norm_num) (by norm_num)

/-- C7 counterexample: the src/unnamed/part_001 `diffDays` applied to two
instants of the same (UTC) calendar day — midnight and noon — returns 1,
not the calendar-day difference 0: it neither normalizes to midnight nor
rounds. -/
theorem diffDays_ceil_cex :
    localDayUTC 0 = localDayUTC 43200000 ∧ diffDaysCeil 0 43200000 = 1 := by
  refine ⟨by decide, ?_⟩
  norm_num [diffDaysCeil, jsCeil, msPerDay]
  rw [Int.ceil_eq_iff]
  norm_num
